import Mathlib

/-!
Shallow embedding of the core extraction pipeline of `src/source/extractor.py`:
the text normalizer and CSV decoder (`parse_csv`, lines 61-68), the column
projection (`run_extraction`, lines 136-137) and the orchestration around them
(`run_extraction`, lines 122-137).  Strings are modelled as `List Char`;
Python's `str.splitlines`, `str.strip` and the `csv.reader` state machine
(CPython 3.11, default dialect: delimiter `,`, quotechar `"`, doublequote,
non-strict) are embedded explicitly.
-/

namespace Extractor

/-- Python strings, modelled as lists of characters. -/
abbrev Str := List Char

/-- The characters for which Python's `str.isspace()` is true (CPython 3.11);
`str.strip()` removes exactly these from both ends. -/
def pyIsSpace (c : Char) : Bool :=
  [0x9, 0xa, 0xb, 0xc, 0xd, 0x1c, 0x1d, 0x1e, 0x1f, 0x20, 0x85, 0xa0,
   0x1680, 0x2000, 0x2001, 0x2002, 0x2003, 0x2004, 0x2005, 0x2006, 0x2007,
   0x2008, 0x2009, 0x200a, 0x2028, 0x2029, 0x202f, 0x205f, 0x3000].contains c.toNat

/-- Python `str.strip()`: drop whitespace from both ends. -/
def pyStrip (s : Str) : Str :=
  ((s.dropWhile pyIsSpace).reverse.dropWhile pyIsSpace).reverse

/-- The line-boundary characters of Python `str.splitlines()`
(`\r\n` additionally counts as a single boundary). -/
def isLineBreak (c : Char) : Bool :=
  [0xa, 0xb, 0xc, 0xd, 0x1c, 0x1d, 0x1e, 0x85, 0x2028, 0x2029].contains c.toNat

/-- Worker for `pySplitlines`; `acc` holds the current line reversed. -/
def pySplitlinesAux : Str → Str → List Str
  | [], acc => if acc.isEmpty then [] else [acc.reverse]
  | '\r' :: '\n' :: rest, acc => acc.reverse :: pySplitlinesAux rest []
  | c :: rest, acc =>
    if isLineBreak c then acc.reverse :: pySplitlinesAux rest []
    else pySplitlinesAux rest (c :: acc)

/-- Python `str.splitlines()`: split at line boundaries, no terminal empty line. -/
def pySplitlines (s : Str) : List Str := pySplitlinesAux s []

/-- The three-character code-fence marker (three backquotes, U+0060). -/
def fenceMarker : Str := [Char.ofNat 96, Char.ofNat 96, Char.ofNat 96]

/-- Python `line.startswith("...")` for the fence marker (extractor.py line 65). -/
def startsWithFence (l : Str) : Bool := fenceMarker.isPrefixOf l

/-- The normalizer loop of `parse_csv` (extractor.py lines 62-67): strip each
line, drop it when empty or when it starts with the fence marker. -/
def normLinesAux : List Str → List Str
  | [] => []
  | l :: rest =>
    let s := pyStrip l
    if s.isEmpty || startsWithFence s then normLinesAux rest
    else s :: normLinesAux rest

/-- The normalized lines `parse_csv` feeds to `csv.reader`. -/
def normalizedLines (raw : Str) : List Str := normLinesAux (pySplitlines raw)

/-- The errors CPython 3.11's `csv.reader` (default dialect, non-strict) can
raise while parsing a list of strings: `"new-line character seen in unquoted
field"`, raised when a record continues after an in-line `\n`/`\r`, and
`"field larger than field limit (131072)"`, raised by `parse_add_char` when a
field would exceed `csv.field_size_limit()`. -/
inductive CsvErr where
  | newlineInField
  | fieldTooLarge
deriving DecidableEq

/-- Parser states of CPython's `_csv.c` reader reachable under the default
dialect (no escapechar, no skipinitialspace). -/
inductive CsvSt where
  | startRecord
  | startField
  | inField
  | inQuotedField
  | quoteInQuotedField
  | eatCrnl
deriving DecidableEq

/-- Partial record of the reader: completed fields plus the current field. -/
structure RState where
  fields : List Str
  field : Str
deriving DecidableEq

/-- The default `csv.field_size_limit()` of CPython (128 * 1024). -/
def fieldSizeLimit : Nat := 131072

/-- `parse_add_char` of `_csv.c`: append a character to the current field,
unless the field already holds `field_size_limit` characters, in which case
the reader raises `"field larger than field limit"`. -/
def addChar (r : RState) (c : Char) : Except CsvErr RState :=
  if fieldSizeLimit ≤ r.field.length then .error .fieldTooLarge
  else .ok { r with field := r.field ++ [c] }

/-- Close the current field (`parse_save_field` of `_csv.c`). -/
def saveField (r : RState) : RState := { fields := r.fields ++ [r.field], field := [] }

/-- `_csv.c` transition from `START_FIELD` (also the fallthrough from
`START_RECORD` on an ordinary character). -/
def stepStartField (r : RState) (c : Char) : Except CsvErr (CsvSt × RState) :=
  if c = '\n' ∨ c = '\r' then .ok (.eatCrnl, saveField r)
  else if c = '"' then .ok (.inQuotedField, r)
  else if c = ',' then .ok (.startField, saveField r)
  else (addChar r c).map (fun r2 => (.inField, r2))

/-- `parse_process_char` of `_csv.c`, specialised to the default dialect in
non-strict mode, for an ordinary (non-EOL) character. -/
def stepChar (st : CsvSt) (r : RState) (c : Char) : Except CsvErr (CsvSt × RState) :=
  match st with
  | .startRecord =>
    if c = '\n' ∨ c = '\r' then .ok (.eatCrnl, r)
    else stepStartField r c
  | .startField => stepStartField r c
  | .inField =>
    if c = '\n' ∨ c = '\r' then .ok (.eatCrnl, saveField r)
    else if c = ',' then .ok (.startField, saveField r)
    else (addChar r c).map (fun r2 => (.inField, r2))
  | .inQuotedField =>
    if c = '"' then .ok (.quoteInQuotedField, r)
    else (addChar r c).map (fun r2 => (.inQuotedField, r2))
  | .quoteInQuotedField =>
    if c = '"' then (addChar r c).map (fun r2 => (.inQuotedField, r2))
    else if c = ',' then .ok (.startField, saveField r)
    else if c = '\n' ∨ c = '\r' then .ok (.eatCrnl, saveField r)
    else (addChar r c).map (fun r2 => (.inField, r2))
  | .eatCrnl =>
    if c = '\n' ∨ c = '\r' then .ok (.eatCrnl, r)
    else .error .newlineInField

/-- Run the reader over the characters of one input line. -/
def stepLine : CsvSt → RState → Str → Except CsvErr (CsvSt × RState)
  | st, r, [] => .ok (st, r)
  | st, r, c :: cs =>
    match stepChar st r c with
    | .error e => .error e
    | .ok (st2, r2) => stepLine st2 r2 cs

/-- Outcome of the end-of-line pseudo-character: either the record is complete,
or a quoted field is still open and the record continues on the next line. -/
inductive EolRes where
  | done (rec : List Str)
  | pending (r : RState)

/-- `parse_process_char` at EOL: every state closes the record except
`IN_QUOTED_FIELD`, which carries the partial record to the next line. -/
def stepEol : CsvSt → RState → EolRes
  | .startRecord, r => .done r.fields
  | .startField, r => .done (saveField r).fields
  | .inField, r => .done (saveField r).fields
  | .quoteInQuotedField, r => .done (saveField r).fields
  | .eatCrnl, r => .done r.fields
  | .inQuotedField, r => .pending r

/-- The reader loop over all input lines.  At end of input, a non-empty
current field or an open quoted field yields one final record (non-strict
end-of-data handling of `_csv.c`). -/
def csvRowsAux : List Str → CsvSt → RState → Except CsvErr (List (List Str))
  | [], st, r =>
    if ¬ r.field.isEmpty ∨ st = .inQuotedField then .ok [(saveField r).fields]
    else .ok []
  | line :: rest, st, r =>
    match stepLine st r line with
    | .error e => .error e
    | .ok (st2, r2) =>
      match stepEol st2 r2 with
      | .done rec =>
        match csvRowsAux rest .startRecord ⟨[], []⟩ with
        | .error e => .error e
        | .ok rs => .ok (rec :: rs)
      | .pending r3 => csvRowsAux rest .inQuotedField r3

/-- `csv.reader(lines)` consumed into a list of records. -/
def csvReader (lines : List Str) : Except CsvErr (List (List Str)) :=
  csvRowsAux lines .startRecord ⟨[], []⟩

/-- Keep a row iff some cell is non-blank after trimming (the predicate of
`any(cell.strip() for cell in row)`, extractor.py line 68). -/
def rowKept (row : List Str) : Bool := row.any (fun cell => !(pyStrip cell).isEmpty)

/-- `parse_csv` (extractor.py lines 61-68): normalize, CSV-parse, and drop the
rows whose cells are all blank after trimming. -/
def parse_csv (csv_text : Str) : Except CsvErr (List (List Str)) :=
  (csvReader (normalizedLines csv_text)).map (List.filter rowKept)

/-- `idx = [i for i, h in enumerate(headers) if h in selected]`
(extractor.py line 136). -/
def colIndices (headers selected : List Str) : List Nat :=
  (headers.enum.filter (fun p => selected.contains p.2)).map Prod.fst

/-- `[row[i] if i < len(row) else "" for i in idx]` (extractor.py line 137). -/
def projectRow (idx : List Nat) (row : List Str) : List Str :=
  idx.map (fun i => row.getD i [])

/-- The projection of extractor.py lines 136-137: retained column indices are
computed from the header row (`rows[0]`), and every row is rebuilt over them. -/
def project (rows : List (List Str)) (selected : List Str) : List (List Str) :=
  rows.map (projectRow (colIndices (rows.headD []) selected))

/-- The typed failures of the core of `run_extraction` (extractor.py
lines 128-137): `noRows` is `ValueError("No rows parsed – model response seems
empty or malformed.")`, `noColumns` is `ValueError("No columns selected.")`,
and `csvFailure` is an exception escaping `csv.reader`. -/
inductive ExtractErr where
  | noRows
  | noColumns
  | csvFailure (e : CsvErr)
deriving DecidableEq

/-- The core of `run_extraction` (extractor.py lines 128-137), from the raw
model text to the filtered table handed to `save_and_copy`; `choose_headers`
is the user column-selector collaborator. -/
def run_extraction (csv_raw : Str)
    (choose_headers : List Str → List (List Str) → List Str) :
    Except ExtractErr (List (List Str)) :=
  match parse_csv csv_raw with
  | .error e => .error (.csvFailure e)
  | .ok rows =>
    if rows.isEmpty then .error .noRows
    else
      let headers := rows.headD []
      let preview_rows := (rows.drop 1).take 5
      let selected := choose_headers headers preview_rows
      if selected.isEmpty then .error .noColumns
      else .ok (project rows selected)

deriving instance DecidableEq for Except

/-! ## Helper lemmas -/

/-- The normalizer loop is a filter over the stripped lines. -/
theorem normLinesAux_eq_filter (ls : List Str) :
    normLinesAux ls
      = (ls.map pyStrip).filter (fun l => !(l.isEmpty || startsWithFence l)) := by
  induction ls with
  | nil => rfl
  | cons l rest ih =>
    show (if (pyStrip l).isEmpty || startsWithFence (pyStrip l) then normLinesAux rest
      else pyStrip l :: normLinesAux rest) = _
    rw [List.map_cons, List.filter_cons]
    by_cases h : ((pyStrip l).isEmpty || startsWithFence (pyStrip l)) = true
    · rw [if_pos h, ih, if_neg (by simp [h])]
    · have hb : ((pyStrip l).isEmpty || startsWithFence (pyStrip l)) = false := by
        simpa using h
      rw [if_neg h, ih, if_pos (by simp [hb])]

/-- When every header is selected, the `enumerate`-filter keeps every index. -/
theorem enumFrom_filter_all {s : List Str} : ∀ (hs : List Str) (n : Nat),
    (∀ h ∈ hs, s.contains h = true) →
    ((List.enumFrom n hs).filter (fun p => s.contains p.2)).map Prod.fst
      = List.range' n hs.length := by
  intro hs
  induction hs with
  | nil => intro n _; rfl
  | cons h t ih =>
    intro n hall
    have hh : s.contains h = true := hall h (by simp)
    simp only [List.enumFrom_cons, List.filter_cons, hh, if_true, List.map_cons,
      List.length_cons, List.range'_succ]
    exact congrArg _ (ih (n + 1) (fun x hx => hall x (by simp [hx])))

/-- `colIndices` keeps every index when every header is selected. -/
theorem colIndices_all {headers s : List Str}
    (h : ∀ x ∈ headers, s.contains x = true) :
    colIndices headers s = List.range headers.length := by
  unfold colIndices
  rw [show headers.enum = List.enumFrom 0 headers from rfl,
    enumFrom_filter_all headers 0 h, List.range_eq_range']

/-- Any index produced by the `enumerate`-filter is in range and its header is
selected. -/
theorem mem_enumFrom_filter {s : List Str} : ∀ (hs : List Str) (n i : Nat),
    i ∈ ((List.enumFrom n hs).filter (fun p => s.contains p.2)).map Prod.fst →
    ∃ j, j < hs.length ∧ i = n + j ∧ s.contains (hs.getD j []) = true := by
  intro hs
  induction hs with
  | nil => intro n i h; simp [List.enumFrom] at h
  | cons hd t ih =>
    intro n i hmem
    simp only [List.enumFrom_cons, List.filter_cons] at hmem
    by_cases hc : s.contains hd = true
    · rw [if_pos hc] at hmem
      simp only [List.map_cons, List.mem_cons] at hmem
      rcases hmem with rfl | hmem
      · exact ⟨0, by simp, by omega, by simpa using hc⟩
      · obtain ⟨j, hj, rfl, hcont⟩ := ih (n + 1) i hmem
        exact ⟨j + 1, by simpa using hj, by omega, by simpa using hcont⟩
    · rw [if_neg hc] at hmem
      obtain ⟨j, hj, rfl, hcont⟩ := ih (n + 1) i hmem
      exact ⟨j + 1, by simpa using hj, by omega, by simpa using hcont⟩

/-- Any retained column index is in range of the header row and selected. -/
theorem mem_colIndices {headers s : List Str} {i : Nat}
    (h : i ∈ colIndices headers s) :
    i < headers.length ∧ s.contains (headers.getD i []) = true := by
  obtain ⟨j, hj, hij, hc⟩ := mem_enumFrom_filter headers 0 i h
  obtain rfl : i = j := by omega
  exact ⟨hj, hc⟩

/-- A projected row has one cell per retained index. -/
theorem projectRow_length (idx : List Nat) (row : List Str) :
    (projectRow idx row).length = idx.length := by
  simp [projectRow]

/-- Projecting a row over all its own indices reproduces the row. -/
theorem projectRow_range (row : List Str) :
    projectRow (List.range row.length) row = row := by
  apply List.ext_getElem
  · simp [projectRow]
  · intro i h1 h2
    simp [projectRow, List.getD_eq_getElem?_getD, List.getElem?_eq_getElem h2]

/-- Projection of its own output is the identity: the output's header row only
holds selected headers, and its rows are rectangular. -/
theorem project_project (rows : List (List Str)) (s : List Str) :
    project (project rows s) s = project rows s := by
  cases rows with
  | nil => rfl
  | cons r0 rest =>
    have hhead : (project (r0 :: rest) s).headD []
        = projectRow (colIndices r0 s) r0 := by
      simp [project]
    have hall : ∀ h ∈ projectRow (colIndices r0 s) r0, s.contains h = true := by
      intro h hm
      simp only [projectRow, List.mem_map] at hm
      obtain ⟨i, hi, rfl⟩ := hm
      exact (mem_colIndices hi).2
    have hidx : colIndices ((project (r0 :: rest) s).headD []) s
        = List.range (colIndices r0 s).length := by
      rw [hhead, colIndices_all hall, projectRow_length]
    show (project (r0 :: rest) s).map
        (projectRow (colIndices ((project (r0 :: rest) s).headD []) s))
      = project (r0 :: rest) s
    rw [hidx]
    have hid : ∀ x ∈ project (r0 :: rest) s,
        projectRow (List.range (colIndices r0 s).length) x = x := by
      intro x hx
      simp only [project, List.mem_map] at hx
      obtain ⟨row, _, rfl⟩ := hx
      have hl := projectRow_range (projectRow (colIndices ((r0 :: rest).headD []) s) row)
      rwa [projectRow_length, show (r0 :: rest).headD [] = r0 from rfl] at hl
    rw [List.map_congr_left hid, List.map_id']

/-- A projected cell over an index at least the row length is the empty string. -/
theorem projectRow_getElem_of_short {idx : List Nat} {row : List Str} {j : Nat}
    (hj : j < idx.length) (hshort : row.length ≤ idx.getD j 0) :
    (projectRow idx row)[j]? = some [] := by
  simp only [projectRow, List.getElem?_map, List.getElem?_eq_getElem hj,
    Option.map_some']
  have hidx : idx.getD j 0 = idx[j] := by
    simp [List.getD_eq_getElem?_getD, List.getElem?_eq_getElem hj]
  rw [hidx] at hshort
  simp [List.getD_eq_getElem?_getD, List.getElem?_eq_none hshort]

/-- Lines produced by `pySplitlinesAux` contain no line-break characters
(provided the accumulator holds none). -/
theorem pySplitlinesAux_no_break : ∀ (s acc : Str),
    (∀ c ∈ acc, isLineBreak c = false) →
    ∀ l ∈ pySplitlinesAux s acc, ∀ c ∈ l, isLineBreak c = false := by
  intro s acc
  induction s, acc using pySplitlinesAux.induct with
  | case1 acc he =>
    intro _ l hl
    rw [pySplitlinesAux.eq_1, if_pos he] at hl
    exact absurd hl (List.not_mem_nil l)
  | case2 acc he =>
    intro hacc l hl c hc
    rw [pySplitlinesAux.eq_1, if_neg he] at hl
    rw [List.mem_singleton.mp hl] at hc
    exact hacc c (List.mem_reverse.mp hc)
  | case3 rest acc ih =>
    intro hacc l hl c hc
    rw [pySplitlinesAux.eq_2] at hl
    rcases List.mem_cons.mp hl with rfl | hl
    · exact hacc c (List.mem_reverse.mp hc)
    · exact ih (by simp) l hl c hc
  | case4 ch rest acc hne hlb ih =>
    intro hacc l hl c hc
    rw [pySplitlinesAux.eq_3 _ _ _ hne, if_pos hlb] at hl
    rcases List.mem_cons.mp hl with rfl | hl
    · exact hacc c (List.mem_reverse.mp hc)
    · exact ih (by simp) l hl c hc
  | case5 ch rest acc hne hlb ih =>
    intro hacc l hl c hc
    rw [pySplitlinesAux.eq_3 _ _ _ hne, if_neg hlb] at hl
    refine ih ?_ l hl c hc
    intro x hx
    rcases List.mem_cons.mp hx with rfl | hx
    · exact Bool.eq_false_iff.mpr hlb
    · exact hacc x hx

/-- Stripping only removes characters. -/
theorem mem_of_mem_pyStrip {c : Char} {l : Str} (h : c ∈ pyStrip l) : c ∈ l := by
  unfold pyStrip at h
  have h1 := List.mem_reverse.mp h
  have h2 := (List.dropWhile_sublist pyIsSpace).mem h1
  have h3 := List.mem_reverse.mp h2
  exact (List.dropWhile_sublist pyIsSpace).mem h3

/-- Normalized lines contain no line-break characters. -/
theorem normalizedLines_no_break {raw : Str} {l : Str}
    (hl : l ∈ normalizedLines raw) : ∀ c ∈ l, isLineBreak c = false := by
  unfold normalizedLines at hl
  rw [normLinesAux_eq_filter] at hl
  have hl2 := (List.mem_filter.mp hl).1
  obtain ⟨orig, horig, rfl⟩ := List.mem_map.mp hl2
  intro c hc
  exact pySplitlinesAux_no_break raw [] (by simp) orig horig c (mem_of_mem_pyStrip hc)

/-- On a non-`\n`/`\r` character, with the current field below the size
limit, `START_FIELD` steps without error, stays outside `EAT_CRNL`, and grows
the field by at most one character. -/
theorem stepStartField_no_break {r : RState} {c : Char}
    (hn : ¬(c = '\n' ∨ c = '\r')) (hf : r.field.length < fieldSizeLimit) :
    ∃ st2 r2, stepStartField r c = Except.ok (st2, r2) ∧ st2 ≠ CsvSt.eatCrnl ∧
      r2.field.length ≤ r.field.length + 1 := by
  unfold stepStartField
  rw [if_neg hn]
  by_cases h1 : c = '"'
  · exact ⟨.inQuotedField, r, by rw [if_pos h1], by simp, by omega⟩
  · rw [if_neg h1]
    by_cases h2 : c = ','
    · exact ⟨.startField, saveField r, by rw [if_pos h2], by simp, by simp [saveField]⟩
    · refine ⟨.inField, ⟨r.fields, r.field ++ [c]⟩, ?_, by simp, by simp⟩
      rw [if_neg h2, addChar, if_neg (by omega)]
      rfl

/-- On a character that is not `\n` or `\r`, with the current field below the
size limit, the reader steps without error, stays outside `EAT_CRNL`, and
grows the field by at most one character. -/
theorem stepChar_no_break {st : CsvSt} {r : RState} {c : Char}
    (hst : st ≠ CsvSt.eatCrnl) (hn : ¬(c = '\n' ∨ c = '\r'))
    (hf : r.field.length < fieldSizeLimit) :
    ∃ st2 r2, stepChar st r c = Except.ok (st2, r2) ∧ st2 ≠ CsvSt.eatCrnl ∧
      r2.field.length ≤ r.field.length + 1 := by
  cases st with
  | eatCrnl => exact absurd rfl hst
  | startRecord =>
    obtain ⟨st2, r2, heq, h1, h2⟩ := stepStartField_no_break hn hf
    exact ⟨st2, r2, by simp only [stepChar]; rw [if_neg hn]; exact heq, h1, h2⟩
  | startField =>
    obtain ⟨st2, r2, heq, h1, h2⟩ := stepStartField_no_break hn hf
    exact ⟨st2, r2, by simp only [stepChar]; exact heq, h1, h2⟩
  | inField =>
    by_cases h : c = ','
    · exact ⟨.startField, saveField r, by simp [stepChar, if_neg hn, h], by simp,
        by simp [saveField]⟩
    · refine ⟨.inField, ⟨r.fields, r.field ++ [c]⟩, ?_, by simp, by simp⟩
      simp only [stepChar]
      rw [if_neg hn, if_neg h, addChar, if_neg (by omega)]
      rfl
  | inQuotedField =>
    by_cases h : c = '"'
    · exact ⟨.quoteInQuotedField, r, by simp [stepChar, h], by simp, by omega⟩
    · refine ⟨.inQuotedField, ⟨r.fields, r.field ++ [c]⟩, ?_, by simp, by simp⟩
      simp only [stepChar]
      rw [if_neg h, addChar, if_neg (by omega)]
      rfl
  | quoteInQuotedField =>
    by_cases h : c = '"'
    · refine ⟨.inQuotedField, ⟨r.fields, r.field ++ [c]⟩, ?_, by simp, by simp⟩
      simp only [stepChar]
      rw [if_pos h, addChar, if_neg (by omega)]
      rfl
    · by_cases h2 : c = ','
      · exact ⟨.startField, saveField r, by simp [stepChar, h, h2], by simp,
          by simp [saveField]⟩
      · refine ⟨.inField, ⟨r.fields, r.field ++ [c]⟩, ?_, by simp, by simp⟩
        simp only [stepChar]
        rw [if_neg h, if_neg h2, if_neg hn, addChar, if_neg (by omega)]
        rfl

/-- Over a line free of `\n`/`\r` whose length fits in the remaining field
budget, the reader never errors, never ends in `EAT_CRNL`, and the field grows
by at most the line length. -/
theorem stepLine_no_break : ∀ (line : Str) (st : CsvSt) (r : RState),
    (∀ c ∈ line, isLineBreak c = false) → st ≠ CsvSt.eatCrnl →
    r.field.length + line.length ≤ fieldSizeLimit →
    ∃ st2 r2, stepLine st r line = Except.ok (st2, r2) ∧ st2 ≠ CsvSt.eatCrnl ∧
      r2.field.length ≤ r.field.length + line.length := by
  intro line
  induction line with
  | nil => exact fun st r _ h _ => ⟨st, r, rfl, h, by omega⟩
  | cons c cs ih =>
    intro st r hall hst hbud
    rw [List.length_cons] at hbud
    have hc := hall c (by simp)
    have hn : ¬(c = '\n' ∨ c = '\r') := by
      rintro (rfl | rfl) <;> exact absurd hc (by decide)
    have hf : r.field.length < fieldSizeLimit := by omega
    obtain ⟨st2, r2, heq, hst2, hlen2⟩ := stepChar_no_break hst hn hf
    obtain ⟨st3, r3, heq3, hst3, hlen3⟩ :=
      ih st2 r2 (fun x hx => hall x (by simp [hx])) hst2 (by omega)
    exact ⟨st3, r3, by rw [stepLine, heq]; exact heq3, hst3,
      by rw [List.length_cons]; omega⟩

/-- Over lines free of line-break characters whose total length fits in the
field budget, the whole reader succeeds. -/
theorem csvRowsAux_ok : ∀ (lines : List Str) (st : CsvSt) (r : RState),
    (∀ l ∈ lines, ∀ c ∈ l, isLineBreak c = false) → st ≠ CsvSt.eatCrnl →
    r.field.length + (lines.map List.length).sum ≤ fieldSizeLimit →
    ∃ rows, csvRowsAux lines st r = Except.ok rows := by
  intro lines
  induction lines with
  | nil =>
    intro st r _ _ _
    by_cases h : ¬ r.field.isEmpty ∨ st = CsvSt.inQuotedField
    · exact ⟨[(saveField r).fields], by rw [csvRowsAux, if_pos h]⟩
    · exact ⟨[], by rw [csvRowsAux, if_neg h]⟩
  | cons line rest ih =>
    intro st r hall hst hbud
    rw [List.map_cons, List.sum_cons] at hbud
    obtain ⟨st2, r2, heq, hst2, hlen⟩ :=
      stepLine_no_break line st r (hall line (by simp)) hst (by omega)
    have hrest : ∀ l ∈ rest, ∀ c ∈ l, isLineBreak c = false :=
      fun l hl => hall l (by simp [hl])
    cases heol : stepEol st2 r2 with
    | done rec =>
      have hb : (RState.mk [] []).field.length + (rest.map List.length).sum
          ≤ fieldSizeLimit := by
        show ([] : Str).length + (rest.map List.length).sum ≤ fieldSizeLimit
        simp only [List.length_nil, Nat.zero_add]
        omega
      obtain ⟨rs, hrs⟩ := ih CsvSt.startRecord ⟨[], []⟩ hrest (by simp) hb
      exact ⟨rec :: rs, by rw [csvRowsAux, heq]; simp only [heol, hrs]⟩
    | pending r3 =>
      have hr23 : r2 = r3 := by
        cases st2 <;> simp [stepEol] at heol
        exact heol
      obtain ⟨rs, hrs⟩ := ih CsvSt.inQuotedField r3 hrest (by simp)
        (by rw [← hr23]; omega)
      exact ⟨rs, by rw [csvRowsAux, heq]; simp only [heol]; exact hrs⟩

/-- Stripping never lengthens a string. -/
theorem pyStrip_length_le (l : Str) : (pyStrip l).length ≤ l.length := by
  unfold pyStrip
  calc ((l.dropWhile pyIsSpace).reverse.dropWhile pyIsSpace).reverse.length
      = ((l.dropWhile pyIsSpace).reverse.dropWhile pyIsSpace).length :=
        List.length_reverse _
    _ ≤ (l.dropWhile pyIsSpace).reverse.length :=
        (List.dropWhile_sublist _).length_le
    _ = (l.dropWhile pyIsSpace).length := List.length_reverse _
    _ ≤ l.length := (List.dropWhile_sublist _).length_le

/-- The split lines hold at most the input plus accumulator characters. -/
theorem pySplitlinesAux_total_length : ∀ (s acc : Str),
    ((pySplitlinesAux s acc).map List.length).sum ≤ s.length + acc.length := by
  intro s acc
  induction s, acc using pySplitlinesAux.induct with
  | case1 acc he =>
    rw [pySplitlinesAux.eq_1, if_pos he]
    simp
  | case2 acc he =>
    rw [pySplitlinesAux.eq_1, if_neg he]
    simp
  | case3 rest acc ih =>
    rw [pySplitlinesAux.eq_2]
    simp only [List.map_cons, List.sum_cons, List.length_reverse, List.length_cons]
    simp only [List.length_nil] at ih
    omega
  | case4 c rest acc hne hlb ih =>
    rw [pySplitlinesAux.eq_3 _ _ _ hne, if_pos hlb]
    simp only [List.map_cons, List.sum_cons, List.length_reverse, List.length_cons]
    simp only [List.length_nil] at ih
    omega
  | case5 c rest acc hne hlb ih =>
    rw [pySplitlinesAux.eq_3 _ _ _ hne, if_neg hlb]
    simp only [List.length_cons] at ih ⊢
    omega

/-- The normalized lines hold at most `raw.length` characters in total. -/
theorem normalizedLines_total_length (raw : Str) :
    ((normalizedLines raw).map List.length).sum ≤ raw.length := by
  unfold normalizedLines
  rw [normLinesAux_eq_filter]
  have h1 : ((((pySplitlines raw).map pyStrip).filter
        (fun l => !(l.isEmpty || startsWithFence l))).map List.length).sum
      ≤ (((pySplitlines raw).map pyStrip).map List.length).sum :=
    List.Sublist.sum_le_sum ((List.filter_sublist _).map _) (fun a _ => Nat.zero_le a)
  have h2 : (((pySplitlines raw).map pyStrip).map List.length).sum
      ≤ ((pySplitlines raw).map List.length).sum := by
    rw [List.map_map]
    exact List.sum_le_sum (fun l _ => pyStrip_length_le l)
  have h3 : ((pySplitlines raw).map List.length).sum ≤ raw.length := by
    simpa [pySplitlines] using pySplitlinesAux_total_length raw []
  exact le_trans h1 (le_trans h2 h3)

/-! ## Claim theorems -/

/-- C1 counterexample: on the spec's own malformed input `Name,"Age\n1,2`
(an unbalanced double quote), `parse_csv` does not fail at all: the non-strict
reader continues the quoted field across the next line and returns a Table,
so no `MalformedCsvError` is signalled. -/
theorem C1_counterexample :
    parse_csv ("Name,\"Age\n1,2".toList)
      = Except.ok [["Name".toList, "Age1,2".toList]] := rfl

/-- C1 (amended): on malformed quoting the decoder does not signal any
quoting error — no `MalformedCsvError` exists; the non-strict reader resolves
the unbalanced quote and returns a Table — and on any raw input of at most
`field_size_limit` (131072) characters `parse_csv` raises nothing at all,
the field-size error being the only error path reachable from normalized
lines. -/
theorem C1_decoder_ok_within_limit (raw : Str)
    (hlen : raw.length ≤ fieldSizeLimit) :
    ∃ rows, parse_csv raw = Except.ok rows := by
  obtain ⟨rows, h⟩ := csvRowsAux_ok (normalizedLines raw) CsvSt.startRecord ⟨[], []⟩
    (fun l hl => normalizedLines_no_break hl) (by simp)
    (by simpa using le_trans (normalizedLines_total_length raw) hlen)
  exact ⟨rows.filter rowKept, by unfold parse_csv csvReader; rw [h]; rfl⟩

/-- C1 witness: the spec's unbalanced-quote input is far below the field
size limit, so the decoder succeeds on it. -/
theorem C1_witness :
    ("Name,\"Age\n1,2".toList.length ≤ fieldSizeLimit) ∧
    ∃ rows, parse_csv ("Name,\"Age\n1,2".toList) = Except.ok rows :=
  ⟨by decide, C1_decoder_ok_within_limit ("Name,\"Age\n1,2".toList) (by decide)⟩

/-- C2 counterexample: a ragged decoder-producible Table (`Name,Age` over
`Bob`) is not reproduced by projection with the full header set: the short
row is padded with an empty cell. -/
theorem C2_counterexample :
    project [["Name".toList, "Age".toList], ["Bob".toList]]
        ["Name".toList, "Age".toList]
      ≠ [["Name".toList, "Age".toList], ["Bob".toList]] := by decide

/-- C2 (amended): projecting a Table whose rows all have the header row's
length with a selection containing every header value yields the Table
itself. -/
theorem C2_project_full_selection (rows : List (List Str)) (s : List Str)
    (hsel : ∀ h ∈ rows.headD [], s.contains h = true)
    (hrect : ∀ row ∈ rows, row.length = (rows.headD []).length) :
    project rows s = rows := by
  unfold project
  rw [colIndices_all hsel]
  have hid : ∀ x ∈ rows, projectRow (List.range (rows.headD []).length) x = x := by
    intro x hx
    rw [← hrect x hx]
    exact projectRow_range x
  rw [List.map_congr_left (g := fun a => a) hid, List.map_id']

/-- C2 witness: a rectangular table with full selection round-trips. -/
theorem C2_witness :
    (∀ h ∈ ([["A".toList, "B".toList], ["x".toList, "y".toList]] :
        List (List Str)).headD [],
      (["A".toList, "B".toList] : List Str).contains h = true) ∧
    project [["A".toList, "B".toList], ["x".toList, "y".toList]]
        ["A".toList, "B".toList]
      = [["A".toList, "B".toList], ["x".toList, "y".toList]] :=
  ⟨by decide, C2_project_full_selection _ _ (by decide) (by decide)⟩

/-- C3 counterexample: the decoder does not trim cells after parsing: on
`a, b` the second cell keeps its leading blank. -/
theorem C3_counterexample :
    parse_csv ("a, b".toList) = Except.ok [[['a'], [' ', 'b']]] ∧
    pyStrip [' ', 'b'] ≠ [' ', 'b'] := ⟨rfl, by decide⟩

/-- C3 (amended): the decoder keeps cells untrimmed, but discards a row
exactly when every cell is blank after trimming: the Table is the CSV-parsed
rows filtered by `rowKept`, and every surviving row has a non-blank cell. -/
theorem C3_row_filter (raw : Str) (rows : List (List Str))
    (h : parse_csv raw = Except.ok rows) :
    (∀ row ∈ rows, ∃ c ∈ row, pyStrip c ≠ []) ∧
    (∀ parsed, csvReader (normalizedLines raw) = Except.ok parsed →
      rows = parsed.filter rowKept) := by
  have key : ∀ parsed, csvReader (normalizedLines raw) = Except.ok parsed →
      rows = parsed.filter rowKept := by
    intro parsed hcr
    unfold parse_csv at h
    rw [hcr] at h
    simp only [Except.map] at h
    exact (Except.ok.inj h).symm
  refine ⟨?_, key⟩
  intro row hrow
  cases hcr : csvReader (normalizedLines raw) with
  | error e =>
    unfold parse_csv at h
    rw [hcr] at h
    simp [Except.map] at h
  | ok parsed =>
    have hrw := key parsed hcr
    rw [hrw] at hrow
    have hk := (List.mem_filter.mp hrow).2
    unfold rowKept at hk
    rw [List.any_eq_true] at hk
    obtain ⟨c, hc, hb⟩ := hk
    refine ⟨c, hc, ?_⟩
    simp only [Bool.not_eq_true'] at hb
    intro heq
    rw [heq] at hb
    simp at hb

/-- C3 witness: the amended row-filter facts at the concrete input `a, b`. -/
theorem C3_witness :
    (∀ row ∈ ([[['a'], [' ', 'b']]] : List (List Str)), ∃ c ∈ row, pyStrip c ≠ []) ∧
    (∀ parsed, csvReader (normalizedLines ("a, b".toList)) = Except.ok parsed →
      [[['a'], [' ', 'b']]] = parsed.filter rowKept) :=
  C3_row_filter ("a, b".toList) [[['a'], [' ', 'b']]] (by decide)

/-- C4: raw text made only of fence-marker and blank lines normalizes to
nothing and makes the pipeline fail with the no-rows error (the code's
`EmptyTableError`); in general the pipeline fails with that error exactly
when the decoded Table has zero rows. -/
theorem C4_empty_table (raw : Str) (sel : List Str → List (List Str) → List Str) :
    ((∀ l ∈ pySplitlines raw, pyStrip l = [] ∨ startsWithFence (pyStrip l) = true) →
      normalizedLines raw = [] ∧
      run_extraction raw sel = Except.error ExtractErr.noRows) ∧
    (run_extraction raw sel = Except.error ExtractErr.noRows ↔
      parse_csv raw = Except.ok []) := by
  have iff_part : run_extraction raw sel = Except.error ExtractErr.noRows ↔
      parse_csv raw = Except.ok [] := by
    constructor
    · intro h
      cases hpc : parse_csv raw with
      | error e =>
        unfold run_extraction at h
        rw [hpc] at h
        simp at h
      | ok rows =>
        unfold run_extraction at h
        rw [hpc] at h
        by_cases hr : rows.isEmpty = true
        · exact congrArg Except.ok (List.isEmpty_iff.mp hr)
        · exfalso
          simp [hr] at h
          split at h <;> simp_all
    · intro h
      unfold run_extraction
      rw [h]
      rfl
  refine ⟨?_, iff_part⟩
  intro hall
  have hnorm : normalizedLines raw = [] := by
    unfold normalizedLines
    rw [normLinesAux_eq_filter, List.filter_eq_nil_iff]
    intro a ha
    obtain ⟨l, hl, rfl⟩ := List.mem_map.mp ha
    rcases hall l hl with h | h <;> simp [h]
  have hpc : parse_csv raw = Except.ok [] := by
    unfold parse_csv csvReader
    rw [hnorm]
    rfl
  exact ⟨hnorm, iff_part.mpr hpc⟩

/-- C4 witness: the fence-and-blank-only input really takes the no-rows
error path. -/
theorem C4_witness :
    normalizedLines ("```csv\n \n```".toList) = [] ∧
    run_extraction ("```csv\n \n```".toList) (fun _ _ => [])
      = Except.error ExtractErr.noRows :=
  (C4_empty_table ("```csv\n \n```".toList) (fun _ _ => [])).1 (by decide)

/-- C5: the normalizer is exactly a strip-then-filter of the split lines:
a line is dropped iff it trims to empty or starts with the fence marker,
surviving lines keep their relative order, and no output line is empty or
fence-led. -/
theorem C5_normalizer (raw : Str) :
    normalizedLines raw
      = ((pySplitlines raw).map pyStrip).filter
          (fun l => !(l.isEmpty || startsWithFence l)) ∧
    (∀ l ∈ normalizedLines raw, l ≠ [] ∧ startsWithFence l = false) ∧
    List.Sublist (normalizedLines raw) ((pySplitlines raw).map pyStrip) := by
  refine ⟨normLinesAux_eq_filter _, ?_, ?_⟩
  · intro l hl
    unfold normalizedLines at hl
    rw [normLinesAux_eq_filter] at hl
    have hp := (List.mem_filter.mp hl).2
    simp only [Bool.not_eq_true', Bool.or_eq_false_iff] at hp
    exact ⟨fun heq => by simp [heq] at hp, hp.2⟩
  · unfold normalizedLines
    rw [normLinesAux_eq_filter]
    exact List.filter_sublist _

/-- C6: when a row is shorter than a retained column index, the projected
cell at that position is the empty string, and that projected row is still
produced (no error). -/
theorem C6_short_row (rows : List (List Str)) (selected : List Str)
    (row : List Str) (hrow : row ∈ rows) (j : Nat)
    (hj : j < (colIndices (rows.headD []) selected).length)
    (hshort : row.length ≤ (colIndices (rows.headD []) selected).getD j 0) :
    (projectRow (colIndices (rows.headD []) selected) row)[j]? = some [] ∧
    projectRow (colIndices (rows.headD []) selected) row ∈ project rows selected := by
  refine ⟨projectRow_getElem_of_short hj hshort, ?_⟩
  unfold project
  exact List.mem_map_of_mem _ hrow

/-- C6 witness: a one-cell row under a selected second column projects to an
empty-string cell. -/
theorem C6_witness :
    (projectRow (colIndices (([[['A'], ['B']], [['x']]] : List (List Str)).headD [])
        [['B']]) [['x']])[0]? = some [] ∧
    projectRow (colIndices (([[['A'], ['B']], [['x']]] : List (List Str)).headD [])
        [['B']]) [['x']] ∈ project [[['A'], ['B']], [['x']]] [['B']] :=
  C6_short_row [[['A'], ['B']], [['x']]] [['B']] [['x']] (by decide) 0
    (by decide) (by decide)

/-- C7: when the selected set equals the projected table's header set,
projecting again is the identity (in fact projection is always idempotent
on its own output). -/
theorem C7_project_idempotent (rows : List (List Str)) (s : List Str)
    (_hs : ∀ h : Str, h ∈ s ↔ h ∈ (project rows s).headD []) :
    project (project rows s) s = project rows s :=
  project_project rows s

/-- C7 witness: idempotence at a concrete table whose projected header set
equals the selection. -/
theorem C7_witness :
    (∀ h : Str, h ∈ (["A".toList, "B".toList] : List Str) ↔
      h ∈ (project [["A".toList, "B".toList], ["x".toList, "y".toList]]
        ["A".toList, "B".toList]).headD []) ∧
    project (project [["A".toList, "B".toList], ["x".toList, "y".toList]]
        ["A".toList, "B".toList]) ["A".toList, "B".toList]
      = project [["A".toList, "B".toList], ["x".toList, "y".toList]]
        ["A".toList, "B".toList] := by
  have heq : (project [["A".toList, "B".toList], ["x".toList, "y".toList]]
      ["A".toList, "B".toList]).headD [] = (["A".toList, "B".toList] : List Str) := by
    decide
  exact ⟨fun h => by rw [heq], C7_project_idempotent _ _ (fun h => by rw [heq])⟩

/-- C8: the spec's worked example: the fenced `Name,Age / Alice,30 / Bob,`
input decodes to the expected Table, and selecting `Name` projects it to the
expected one-column table. -/
theorem C8_example :
    parse_csv ("```csv\nName,Age\nAlice,30\nBob,\n```".toList)
      = Except.ok [["Name".toList, "Age".toList], ["Alice".toList, "30".toList],
          ["Bob".toList, []]] ∧
    project [["Name".toList, "Age".toList], ["Alice".toList, "30".toList],
        ["Bob".toList, []]] ["Name".toList]
      = [["Name".toList], ["Alice".toList], ["Bob".toList]] :=
  ⟨rfl, by decide⟩

/-- C9: the orchestrator consults the column selector exactly at the header
row (`rows[0]`) and the preview `rows[1:6]`, which is precisely the next
`min 5 (number of data rows)` rows. -/
theorem C9_selector_args (raw : Str) (rows : List (List Str))
    (sel1 sel2 : List Str → List (List Str) → List Str)
    (hpc : parse_csv raw = Except.ok rows) (hne : rows ≠ []) :
    ((rows.drop 1).take 5).length = min 5 (rows.length - 1) ∧
    rows = rows.headD [] :: ((rows.drop 1).take 5 ++ (rows.drop 1).drop 5) ∧
    (sel1 (rows.headD []) ((rows.drop 1).take 5)
        = sel2 (rows.headD []) ((rows.drop 1).take 5) →
      run_extraction raw sel1 = run_extraction raw sel2) := by
  refine ⟨by simp, ?_, ?_⟩
  · cases rows with
    | nil => exact absurd rfl hne
    | cons r t => simp
  · intro hsel
    have hr : rows.isEmpty = false := by
      cases rows with
      | nil => exact absurd rfl hne
      | cons r t => rfl
    unfold run_extraction
    rw [hpc]
    simp only [hr]
    rw [hsel]

/-- C9 witness: the preview facts and selector-dependence at a concrete
two-row table. -/
theorem C9_witness :
    ((([[['a'], ['b']], [['c']]] : List (List Str)).drop 1).take 5).length
      = min 5 (([[['a'], ['b']], [['c']]] : List (List Str)).length - 1) ∧
    ([[['a'], ['b']], [['c']]] : List (List Str))
      = ([[['a'], ['b']], [['c']]] : List (List Str)).headD []
        :: ((([[['a'], ['b']], [['c']]] : List (List Str)).drop 1).take 5
          ++ (([[['a'], ['b']], [['c']]] : List (List Str)).drop 1).drop 5) ∧
    ((fun h (_ : List (List Str)) => h)
        (([[['a'], ['b']], [['c']]] : List (List Str)).headD [])
        ((([[['a'], ['b']], [['c']]] : List (List Str)).drop 1).take 5)
      = (fun h (_ : List (List Str)) => h)
        (([[['a'], ['b']], [['c']]] : List (List Str)).headD [])
        ((([[['a'], ['b']], [['c']]] : List (List Str)).drop 1).take 5) →
      run_extraction ("a,b\nc".toList) (fun h (_ : List (List Str)) => h)
        = run_extraction ("a,b\nc".toList) (fun h (_ : List (List Str)) => h)) :=
  C9_selector_args ("a,b\nc".toList) [[['a'], ['b']], [['c']]]
    (fun h (_ : List (List Str)) => h) (fun h (_ : List (List Str)) => h)
    (by decide) (by decide)

/-- C10: every row of a projected table (header and data alike) has exactly
one cell per retained column index, so the projection is rectangular even on
ragged input. -/
theorem C10_projected_rectangular (rows : List (List Str)) (selected : List Str)
    (prow : List Str) (h : prow ∈ project rows selected) :
    prow.length = (colIndices (rows.headD []) selected).length := by
  unfold project at h
  obtain ⟨row, _, rfl⟩ := List.mem_map.mp h
  exact projectRow_length _ _

/-- C10 witness: rectangularity at a concrete ragged table. -/
theorem C10_witness :
    (["Name".toList] : List Str).length
      = (colIndices (([["Name".toList, "Age".toList], ["Bob".toList]] :
          List (List Str)).headD []) ["Name".toList]).length :=
  C10_projected_rectangular [["Name".toList, "Age".toList], ["Bob".toList]]
    ["Name".toList] ["Name".toList] (by decide)

end Extractor
